import Mathlib

/-!
Verification of the windowed, precomputed, parallel multi-scalar
multiplication (MSM) engine of `src/groth16/utils.rs`.

The elliptic-curve group is treated as an opaque additive commutative
monoid `G` (the spec assumes the group arithmetic as an external, correct
capability): affine and projective points both embed as elements of `G`,
`add_assign_mixed` is `+`, `double` is `fun g => g + g`, `zero` is `0`.

Scalar representations (`<E::Fr as PrimeField>::Repr`) are lists of
64-bit limbs, least significant first, embedded as `List Nat`; the Rust
code reads limbs through `AsRef<[u64]>`.  Out-of-range indexing (which
panics in Rust) is totalized with `List.getD` defaults; all theorems
about well-formed inputs carry the bounds under which the Rust code
never reaches those defaults.  The single `panic!` that is part of the
algorithm's documented error design (the window-size configuration
check) is modelled as `Except.error`.
-/

namespace BellMSM

/-- One scalar representation: 64-bit limbs, least significant first. -/
abbrev ScalarRepr := List Nat

/-- The integer value denoted by a limb list (base `2 ^ 64`). -/
def reprVal : ScalarRepr → Nat
  | [] => 0
  | x :: xs => x + 2 ^ 64 * reprVal xs

/-- `std::mem::size_of::<u64>() * 8`, the limb width used by the window
extraction in `multiscalar`. -/
def bitsPerLimb : Nat := 64

/-- The message of the fatal configuration error raised by `multiscalar`. -/
def msErr : String := "Unsupported multiscalar window size!"

/-- `MultiscalarPrecompOwned` of `utils.rs`: the owning precomputation
table. `tables` holds one sub-table per base point. -/
structure MultiscalarPrecompOwned (G : Type) where
  num_points : Nat
  window_size : Nat
  window_mask : Nat
  table_entries : Nat
  tables : List (List G)

/-- `MultiscalarPrecompRef` of `utils.rs`: a non-owning view; in the
shallow embedding the shared storage is copied, which is observationally
identical because tables are read-only. -/
structure MultiscalarPrecompRef (G : Type) where
  num_points : Nat
  window_size : Nat
  window_mask : Nat
  table_entries : Nat
  tables : List (List G)

/-- `MultiscalarPrecompOwned::at_point`: slice the table at a point offset. -/
def MultiscalarPrecompOwned.at_point {G : Type} (t : MultiscalarPrecompOwned G) (idx : Nat) :
    MultiscalarPrecompRef G :=
  { num_points := t.num_points - idx
    window_size := t.window_size
    window_mask := t.window_mask
    table_entries := t.table_entries
    tables := t.tables.drop idx }

/-- `MultiscalarPrecompRef::at_point`: slice a view at a further offset. -/
def MultiscalarPrecompRef.at_point {G : Type} (t : MultiscalarPrecompRef G) (idx : Nat) :
    MultiscalarPrecompRef G :=
  { num_points := t.num_points - idx
    window_size := t.window_size
    window_mask := t.window_mask
    table_entries := t.table_entries
    tables := t.tables.drop idx }

variable {G : Type} [AddCommMonoid G]

/-- The per-point loop body of `precompute_fixed_window`: starting from the
running projective accumulator `cur`, add the base `point` repeatedly and
record each intermediate sum (converted to affine, which is the identity
in this embedding). -/
def precompTableAux (point : G) (cur : G) : Nat → List G
  | 0 => []
  | n + 1 =>
    let next := cur + point
    next :: precompTableAux point next n

/-- One point's precomputed sub-table: entry 0 is the point itself, and the
loop appends `table_entries - 1` further multiples. -/
def precompPointTable (point : G) (table_entries : Nat) : List G :=
  point :: precompTableAux point point (table_entries - 1)

/-- `precompute_fixed_window` of `utils.rs`. -/
def precompute_fixed_window (points : List G) (window_size : Nat) :
    MultiscalarPrecompOwned G :=
  let table_entries := 2 ^ window_size - 1
  { num_points := points.length
    window_size := window_size
    window_mask := 2 ^ window_size - 1
    table_entries := table_entries
    tables := points.map (fun point => precompPointTable point table_entries) }

/-- `(i * window_size) / BITS_PER_LIMB`: which limb holds window `i`. -/
def windowLimb (window_size i : Nat) : Nat := (i * window_size) / bitsPerLimb

/-- `i % (BITS_PER_LIMB / window_size)`: the window's position inside its limb. -/
def windowInLimb (window_size i : Nat) : Nat := i % (bitsPerLimb / window_size)

/-- The `window_size`-bit digit of scalar `s` at window index `i`, exactly as
`multiscalar` extracts it: shift the limb and mask with `window_mask`. -/
def scalarDigit (window_size window_mask : Nat) (s : ScalarRepr) (i : Nat) : Nat :=
  (s.getD (windowLimb window_size i) 0 >>> (windowInLimb window_size i * window_size))
    &&& window_mask

/-- The loop state of the software-pipelined inner loop of `multiscalar`:
the running result, the previous point's digit (`prev_idx`), its table
(`prev_table`), and the `table` local variable. -/
structure MsState (G : Type) where
  result : G
  prev_idx : Nat
  prev_table : List G
  table : List G

/-- One iteration of the inner loop of `multiscalar` (point index `m` inside
window `i`): resolve the digit of point `m`, but commit the addition for
point `m - 1` (the prefetch itself has no semantic effect and is omitted). -/
def msStep (t : MultiscalarPrecompRef G) (k : List ScalarRepr) (i : Nat)
    (st : MsState G) (m : Nat) : MsState G :=
  let idx := scalarDigit t.window_size t.window_mask (k.getD m []) i
  let table := if 0 < idx then t.tables.getD m [] else st.table
  let result :=
    if 0 < st.prev_idx ∧ 0 < m then
      st.result + st.prev_table.getD (st.prev_idx - 1) 0
    else
      st.result
  { result := result, prev_idx := idx, prev_table := table, table := table }

/-- The final flush after the inner loop: commit the last pending addition. -/
def msFlush (st : MsState G) : G :=
  if 0 < st.prev_idx then st.result + st.prev_table.getD (st.prev_idx - 1) 0 else st.result

/-- `double` applied `n` times to `g` (the `window_size` doublings at the top
of each window iteration). -/
def doubleTimes (g : G) : Nat → G
  | 0 => g
  | n + 1 => doubleTimes (g + g) n

/-- One window iteration of `multiscalar`: double the result `window_size`
times, run the pipelined inner loop over all points, flush the last addition. -/
def msWindow (t : MultiscalarPrecompRef G) (k : List ScalarRepr)
    (num_points i : Nat) (result : G) : G :=
  let doubled := doubleTimes result t.window_size
  let t0 := t.tables.getD 0 []
  msFlush ((List.range num_points).foldl (msStep t k i) ⟨doubled, 0, t0, t0⟩)

/-- The arithmetic core of `multiscalar`: process the windows from most
significant to least significant. -/
def multiscalarLoop (t : MultiscalarPrecompRef G) (k : List ScalarRepr)
    (num_points nbits : Nat) : G :=
  let num_windows := (nbits + t.window_size - 1) / t.window_size
  ((List.range num_windows).reverse).foldl (fun r i => msWindow t k num_points i r) 0

/-- `multiscalar` of `utils.rs`: the single-threaded windowed accumulator.
The `panic!` on an unsupported window size is modelled as `Except.error`. -/
def multiscalar (k : List ScalarRepr) (t : MultiscalarPrecompRef G)
    (num_points nbits : Nat) : Except String G :=
  if nbits % t.window_size ≠ 0 ∨ bitsPerLimb % t.window_size ≠ 0 then
    Except.error msErr
  else
    Except.ok (multiscalarLoop t k num_points nbits)

/-- `PublicInputs` of `utils.rs`: a scalar source that is either a borrowed
slice or an index-to-scalar getter. -/
inductive PublicInputs where
  | Slice : List ScalarRepr → PublicInputs
  | Getter : (Nat → ScalarRepr) → PublicInputs

/-- `PublicInputs::get`. -/
def PublicInputs.get : PublicInputs → Nat → ScalarRepr
  | PublicInputs.Slice s, i => s.getD i []
  | PublicInputs.Getter f, i => f i

/-- The chunk-size policy of `par_multiscalar`: 16 points per chunk, 256 when
`num_points > 1024`, falling back to 1 when the chunk would exceed
`num_points`. -/
def chunkSizeFor (num_points : Nat) : Nat :=
  let c := if 1024 < num_points then 256 else 16
  if num_points < c then 1 else c

/-- The number of work chunks handed out by the atomic counter:
`ceil(num_points / chunk_size)`. -/
def numChunks (num_points chunk_size : Nat) : Nat :=
  (num_points + chunk_size - 1) / chunk_size

/-- The scalars a worker materializes for the chunk `[start_idx, end_idx)`:
a direct tail slice for `Slice`, and the getter's values staged into the
scratch buffer for `Getter` (only the first `end_idx - start_idx` entries
of the scratch buffer are ever read, so the stale tail is not modelled). -/
def chunkScalars (k : PublicInputs) (start_idx end_idx : Nat) : List ScalarRepr :=
  match k with
  | PublicInputs.Slice s => s.drop start_idx
  | PublicInputs.Getter f => (List.range (end_idx - start_idx)).map (fun j => f (start_idx + j))

/-- One chunk's accumulation inside a worker: slice the scalars and the
table at `start_idx = c * chunk_size` and run `multiscalar` over
`num_items` points. -/
def chunkAcc (k : PublicInputs) (t : MultiscalarPrecompOwned G)
    (num_points nbits chunk_size c : Nat) : Except String G :=
  let start_idx := c * chunk_size
  let end_idx := min (start_idx + chunk_size) num_points
  let num_items := end_idx - start_idx
  multiscalar (chunkScalars k start_idx end_idx) (t.at_point start_idx) num_items nbits

/-- A worker thread's loop: fold the chunks it claimed from the atomic
counter (in claim order) into its thread-local accumulator. -/
def threadResult (k : PublicInputs) (t : MultiscalarPrecompOwned G)
    (num_points nbits chunk_size : Nat) : List Nat → G → Except String G
  | [], acc => Except.ok acc
  | c :: rest, acc =>
    match chunkAcc k t num_points nbits chunk_size c with
    | Except.error e => Except.error e
    | Except.ok a => threadResult k t num_points nbits chunk_size rest (acc + a)

/-- Collect every worker's thread-local result (a panic in any worker
aborts the whole parallel call). -/
def collectThreads (k : PublicInputs) (t : MultiscalarPrecompOwned G)
    (num_points nbits chunk_size : Nat) : List (List Nat) → Except String (List G)
  | [] => Except.ok []
  | th :: rest =>
    match threadResult k t num_points nbits chunk_size th 0 with
    | Except.error e => Except.error e
    | Except.ok r =>
      match collectThreads k t num_points nbits chunk_size rest with
      | Except.error e => Except.error e
      | Except.ok rs => Except.ok (r :: rs)

/-- `par_multiscalar` relative to an explicit schedule: `sched` lists, per
worker thread, the chunk indices that thread claimed from the atomic
counter, in claim order.  The thread results are reduced sequentially. -/
def parSched (k : PublicInputs) (t : MultiscalarPrecompOwned G)
    (num_points nbits chunk_size : Nat) (sched : List (List Nat)) : Except String G :=
  match collectThreads k t num_points nbits chunk_size sched with
  | Except.error e => Except.error e
  | Except.ok rs => Except.ok (rs.foldl (fun a b => a + b) 0)

/-- One admissible claim order used as the canonical denotation: the first
worker claims every chunk.  `parSched_spec` below shows that every
admissible schedule (any partition of the chunk indices among the workers)
yields the same result. -/
def canonicalSchedule (num_threads num_chunks : Nat) : List (List Nat) :=
  match num_threads with
  | 0 => []
  | n + 1 => List.range num_chunks :: List.replicate n []

/-- `par_multiscalar` of `utils.rs`: chunked, work-stealing parallel MSM.
`num_threads = min max_threads (ceil(num_points / chunk_size))`. -/
def par_multiscalar (max_threads : Nat) (k : PublicInputs)
    (t : MultiscalarPrecompOwned G) (num_points nbits : Nat) : Except String G :=
  let chunk_size := chunkSizeFor num_points
  let num_threads := min max_threads (numChunks num_points chunk_size)
  parSched k t num_points nbits chunk_size
    (canonicalSchedule num_threads (numChunks num_points chunk_size))

/-- The table entry contributed by scalar `s` at window `i` reading sub-table
`tab`: digit 0 means skip (contributes the identity). -/
def entryVal (window_size window_mask : Nat) (tab : List G) (s : ScalarRepr) (i : Nat) : G :=
  let d := scalarDigit window_size window_mask s i
  if 0 < d then tab.getD (d - 1) 0 else 0

/-- The total contribution of one point across all windows. -/
def pointContrib (window_size window_mask nbits : Nat) (tab : List G) (s : ScalarRepr) : G :=
  ∑ i in Finset.range ((nbits + window_size - 1) / window_size),
    2 ^ (i * window_size) • entryVal window_size window_mask tab s i

/-- The contribution of the point at global index `m` to the full MSM over
table `t` and scalar source `k`. -/
def msmPointContrib (k : PublicInputs) (t : MultiscalarPrecompOwned G) (nbits m : Nat) : G :=
  pointContrib t.window_size t.window_mask nbits (t.tables.getD m []) (k.get m)

/-- The mathematical value of the full parallel MSM over table `t`:
the sum of every point's contribution, at global point indices. -/
def msmTableSum (k : PublicInputs) (t : MultiscalarPrecompOwned G) (num_points nbits : Nat) : G :=
  ∑ m in Finset.range num_points, msmPointContrib k t nbits m

/-- The group element produced by one chunk's accumulation (the `Except.ok`
payload of `chunkAcc` when the configuration is valid). -/
def chunkVal (k : PublicInputs) (t : MultiscalarPrecompOwned G)
    (num_points nbits chunk_size c : Nat) : G :=
  multiscalarLoop (t.at_point (c * chunk_size))
    (chunkScalars k (c * chunk_size) (min (c * chunk_size + chunk_size) num_points))
    (min (c * chunk_size + chunk_size) num_points - c * chunk_size) nbits

/-- Modelled from the spec (§8, "Correctness vs. naive reference"; this
oracle lives in the repository's tests, which are not under `src/`):
plain most-significant-bit-first double-and-add scalar multiplication
over `nbits` bits, with no windowing and no precomputation. -/
def naiveDoubleAdd (nbits k : Nat) (p : G) : G :=
  ((List.range nbits).reverse).foldl
    (fun r i =>
      let r2 := r + r
      if (k >>> i) % 2 = 1 then r2 + p else r2)
    0

/-- Modelled from the spec (§8): the naive sequential reference sum
`Σ scalar_i · point_i`, each term computed by `naiveDoubleAdd`. -/
def naiveMSM (nbits : Nat) (scalars : List Nat) (points : List G) : G :=
  ((List.range points.length).map
    (fun i => naiveDoubleAdd nbits (scalars.getD i 0) (points.getD i 0))).sum

/-! ### List indexing helpers -/

theorem getD_drop {α : Type} (l : List α) (n m : Nat) (d : α) :
    (l.drop n).getD m d = l.getD (n + m) d := by
  induction l generalizing n with
  | nil => simp [List.getD]
  | cons a l ih =>
    cases n with
    | zero => simp
    | succ n =>
      have : n + 1 + m = (n + m) + 1 := by omega
      simp only [List.drop_succ_cons, this, List.getD_cons_succ]
      exact ih n

theorem getD_map_of_lt {α β : Type} (f : α → β) (l : List α) (m : Nat) (d : β) (d0 : α)
    (h : m < l.length) : (l.map f).getD m d = f (l.getD m d0) := by
  have hm : m < (l.map f).length := by simpa using h
  rw [List.getD_eq_getElem _ _ hm, List.getD_eq_getElem _ _ h, List.getElem_map]

theorem getD_append_of_lt {α : Type} (l l2 : List α) (m : Nat) (d : α) (h : m < l.length) :
    (l ++ l2).getD m d = l.getD m d := by
  have hm : m < (l ++ l2).length := by simp; omega
  rw [List.getD_eq_getElem _ _ hm, List.getD_eq_getElem _ _ h,
    List.getElem_append_left h]

theorem getD_append_length {α : Type} (l : List α) (z : α) (d : α) :
    (l ++ [z]).getD l.length d = z := by
  have hm : l.length < (l ++ [z]).length := by simp
  rw [List.getD_eq_getElem _ _ hm]
  simp

theorem getD_range_map {α : Type} (f : Nat → α) (n j : Nat) (d : α) (h : j < n) :
    ((List.range n).map f).getD j d = f j := by
  have hj : j < (List.range n).length := by simpa using h
  rw [getD_map_of_lt f _ j d 0 hj, List.getD_eq_getElem _ _ hj, List.getElem_range]

theorem getD_mem {α : Type} (l : List α) (m : Nat) (d : α) (h : m < l.length) :
    l.getD m d ∈ l := by
  rw [List.getD_eq_getElem _ _ h]
  exact List.getElem_mem h

theorem sum_map_range {G : Type} [AddCommMonoid G] (f : Nat → G) (n : Nat) :
    ((List.range n).map f).sum = ∑ i in Finset.range n, f i := by
  induction n with
  | zero => simp
  | succ n ih => rw [List.range_succ, List.map_append, List.sum_append,
      Finset.sum_range_succ, ih]; simp

theorem foldl_add_eq_sum {G : Type} [AddCommMonoid G] (l : List G) (a : G) :
    l.foldl (fun x y => x + y) a = a + l.sum := by
  induction l generalizing a with
  | nil => simp
  | cons x l ih => rw [List.foldl_cons, ih, List.sum_cons, add_assoc]

/-! ### Limb and digit arithmetic -/

theorem reprVal_div (L : ScalarRepr) (hL : ∀ x ∈ L, x < 2 ^ 64) (q : Nat) :
    reprVal L / 2 ^ (64 * q) % 2 ^ 64 = L.getD q 0 := by
  induction L generalizing q with
  | nil => simp [reprVal, Nat.zero_div]
  | cons x xs ih =>
    have hx : x < 2 ^ 64 := hL x (by simp)
    have hxs : ∀ y ∈ xs, y < 2 ^ 64 := fun y hy => hL y (by simp [hy])
    cases q with
    | zero =>
      simp only [Nat.mul_zero, pow_zero, Nat.div_one, reprVal, List.getD_cons_zero]
      rw [Nat.add_mul_mod_self_left, Nat.mod_eq_of_lt hx]
    | succ q =>
      have hsplit : (2 : Nat) ^ (64 * (q + 1)) = 2 ^ 64 * 2 ^ (64 * q) := by
        rw [← pow_add]; ring_nf
      have hx0 : (x + 2 ^ 64 * reprVal xs) / 2 ^ 64 = reprVal xs := by
        rw [Nat.add_mul_div_left x (reprVal xs) (by positivity), Nat.div_eq_of_lt hx,
          Nat.zero_add]
      rw [List.getD_cons_succ, ← ih hxs q]
      simp only [reprVal]
      rw [hsplit, ← Nat.div_div_eq_div_mul, hx0]

theorem mod_mul_decomp (a b v : Nat) (ha : 0 < a) (hb : 0 < b) :
    v % (a * b) = v % a + a * (v / a % b) := by
  have hdecomp : v = (v % a + a * (v / a % b)) + (a * b) * (v / a / b) := by
    have h1 : b * (v / a / b) + v / a % b = v / a := Nat.div_add_mod (v / a) b
    have h2 : v % a + a * (v / a) = v := Nat.mod_add_div v a
    calc v = v % a + a * (v / a) := h2.symm
      _ = v % a + a * (b * (v / a / b) + v / a % b) := by rw [h1]
      _ = (v % a + a * (v / a % b)) + (a * b) * (v / a / b) := by ring
  have hlt : v % a + a * (v / a % b) < a * b := by
    have h3 : v % a < a := Nat.mod_lt v ha
    have h4 : v / a % b < b := Nat.mod_lt _ hb
    have h5 : a * (v / a % b) ≤ a * (b - 1) := Nat.mul_le_mul_left a (by omega)
    have h6 : a * (b - 1) = a * b - a := by
      cases b with
      | zero => omega
      | succ b => simp [Nat.mul_succ]
    have h7 : a ≤ a * b := Nat.le_mul_of_pos_right a hb
    omega
  calc v % (a * b) = ((v % a + a * (v / a % b)) + (a * b) * (v / a / b)) % (a * b) := by
        rw [← hdecomp]
    _ = (v % a + a * (v / a % b)) % (a * b) := Nat.add_mul_mod_self_left _ _ _
    _ = v % a + a * (v / a % b) := Nat.mod_eq_of_lt hlt

theorem mod_pow_div_mod (X a b c : Nat) (h : a + b ≤ c) :
    X % 2 ^ c / 2 ^ a % 2 ^ b = X / 2 ^ a % 2 ^ b := by
  have hc : (2 : Nat) ^ c = 2 ^ a * 2 ^ (c - a) := by rw [← pow_add]; congr 1; omega
  have hca : (2 : Nat) ^ (c - a) = 2 ^ b * 2 ^ (c - a - b) := by
    rw [← pow_add]; congr 1; omega
  have hX : X = X % 2 ^ c + 2 ^ c * (X / 2 ^ c) := (Nat.mod_add_div X (2 ^ c)).symm
  conv_rhs => rw [hX]
  rw [hc, mul_assoc, Nat.add_mul_div_left _ _ (by positivity), hca, mul_assoc,
    Nat.add_mul_mod_self_left]

/-- The window-digit extraction of `multiscalar` agrees with base-`2^w` digit
extraction from the scalar's integer value, whenever the window size divides
the limb width and every limb fits in 64 bits. -/
theorem scalarDigit_eq (ws : Nat) (hws : 1 ≤ ws) (hdvd : ws ∣ 64) (L : ScalarRepr)
    (hL : ∀ x ∈ L, x < 2 ^ 64) (i : Nat) :
    scalarDigit ws (2 ^ ws - 1) L i = reprVal L / 2 ^ (i * ws) % 2 ^ ws := by
  have hws64 : ws ≤ 64 := Nat.le_of_dvd (by norm_num) hdvd
  set r := 64 / ws with hr_def
  have hrw : r * ws = 64 := by
    rw [hr_def]; exact Nat.div_mul_cancel hdvd
  have hr1 : 1 ≤ r := by
    rw [hr_def]
    exact Nat.div_pos hws64 (by omega)
  set s := i % r with hs_def
  set q := i / r with hq_def
  have hsr : s < r := Nat.mod_lt i (by omega)
  have hi : i = r * q + s := by
    have h := Nat.div_add_mod i r
    rw [← hq_def, ← hs_def] at h
    omega
  have hiws : i * ws = 64 * q + s * ws := by
    calc i * ws = (r * q + s) * ws := by rw [← hi]
      _ = q * (r * ws) + s * ws := by ring
      _ = 64 * q + s * ws := by rw [hrw]; ring
  have hstep : (s + 1) * ws ≤ r * ws := Nat.mul_le_mul_right ws (by omega)
  have hbound : s * ws + ws ≤ 64 := by
    rw [Nat.add_mul, Nat.one_mul] at hstep
    omega
  have hlt : s * ws < 64 := by
    have hws0 : 0 < ws := hws
    omega
  have hlimb : windowLimb ws i = q := by
    rw [windowLimb, bitsPerLimb, hiws, Nat.add_comm,
      Nat.add_mul_div_left _ _ (by norm_num : (0:Nat) < 64), Nat.div_eq_of_lt hlt,
      Nat.zero_add]
  have hwin : windowInLimb ws i = s := by
    rw [windowInLimb, bitsPerLimb, hs_def, hr_def]
  rw [scalarDigit, hlimb, hwin, Nat.shiftRight_eq_div_pow,
    Nat.and_pow_two_sub_one_eq_mod, ← reprVal_div L hL q,
    mod_pow_div_mod _ _ _ _ hbound, hiws, pow_add, ← Nat.div_div_eq_div_mul]

/-- Reassembling the base-`2^w` digits of `v` below `2^(W*w)` recovers
`v % 2^(W*w)`. -/
theorem digit_reassemble (w : Nat) : ∀ (W v : Nat),
    (∑ i in Finset.range W, 2 ^ (i * w) * (v / 2 ^ (i * w) % 2 ^ w)) = v % 2 ^ (W * w) := by
  intro W
  induction W with
  | zero => intro v; simp [Nat.mod_one]
  | succ W ih =>
    intro v
    rw [Finset.sum_range_succ, ih v]
    have hsplit : (2 : Nat) ^ ((W + 1) * w) = 2 ^ (W * w) * 2 ^ w := by
      rw [← pow_add]; congr 1; ring
    rw [hsplit, mod_mul_decomp _ _ _ (by positivity) (by positivity)]

/-! ### The pipelined inner loop computes a per-point sum -/

theorem msStep_result (t : MultiscalarPrecompRef G) (k : List ScalarRepr) (i : Nat)
    (st : MsState G) (m : Nat) :
    (msStep t k i st m).result
      = if 0 < st.prev_idx ∧ 0 < m then st.result + st.prev_table.getD (st.prev_idx - 1) 0
        else st.result := rfl

theorem msStep_prev_idx (t : MultiscalarPrecompRef G) (k : List ScalarRepr) (i : Nat)
    (st : MsState G) (m : Nat) :
    (msStep t k i st m).prev_idx = scalarDigit t.window_size t.window_mask (k.getD m []) i := rfl

theorem msStep_prev_table (t : MultiscalarPrecompRef G) (k : List ScalarRepr) (i : Nat)
    (st : MsState G) (m : Nat) :
    (msStep t k i st m).prev_table
      = if 0 < scalarDigit t.window_size t.window_mask (k.getD m []) i then t.tables.getD m []
        else st.table := rfl

theorem msFlush_step (t : MultiscalarPrecompRef G) (k : List ScalarRepr) (i : Nat)
    (st : MsState G) (m : Nat) :
    msFlush (msStep t k i st m)
      = (msStep t k i st m).result
          + entryVal t.window_size t.window_mask (t.tables.getD m []) (k.getD m []) i := by
  simp only [msFlush, msStep_prev_idx, msStep_prev_table, entryVal]
  by_cases hd : 0 < scalarDigit t.window_size t.window_mask (k.getD m []) i
  · rw [if_pos hd, if_pos hd, if_pos hd]
  · rw [if_neg hd, if_neg hd, add_zero]

theorem msFold_flush (t : MultiscalarPrecompRef G) (k : List ScalarRepr) (i : Nat)
    (init : MsState G) (h0 : init.prev_idx = 0) : ∀ n : Nat,
    msFlush ((List.range n).foldl (msStep t k i) init)
      = init.result + ∑ m in Finset.range n,
          entryVal t.window_size t.window_mask (t.tables.getD m []) (k.getD m []) i := by
  intro n
  induction n with
  | zero => simp [msFlush, h0]
  | succ n ih =>
    rw [List.range_succ, List.foldl_append, List.foldl_cons, List.foldl_nil]
    have hres : (msStep t k i ((List.range n).foldl (msStep t k i) init) n).result
        = msFlush ((List.range n).foldl (msStep t k i) init) := by
      rcases Nat.eq_zero_or_pos n with hn | hn
      · subst hn
        simp only [List.range_zero, List.foldl_nil, msStep_result, msFlush, h0]
        simp
      · simp only [msStep_result, msFlush]
        by_cases hp : 0 < ((List.range n).foldl (msStep t k i) init).prev_idx
        · rw [if_pos ⟨hp, hn⟩, if_pos hp]
        · rw [if_neg (fun hc => hp hc.1), if_neg hp]
    rw [msFlush_step, hres, ih, Finset.sum_range_succ, add_assoc]

theorem doubleTimes_eq : ∀ (n : Nat) (g : G), doubleTimes g n = 2 ^ n • g := by
  intro n
  induction n with
  | zero => intro g; simp [doubleTimes]
  | succ n ih =>
    intro g
    rw [doubleTimes, ih (g + g), ← two_nsmul g, ← mul_smul, ← pow_succ]

theorem msWindow_eq (t : MultiscalarPrecompRef G) (k : List ScalarRepr)
    (num_points i : Nat) (r : G) :
    msWindow t k num_points i r
      = 2 ^ t.window_size • r + ∑ m in Finset.range num_points,
          entryVal t.window_size t.window_mask (t.tables.getD m []) (k.getD m []) i := by
  rw [msWindow, msFold_flush t k i _ rfl num_points, doubleTimes_eq]

theorem foldl_rev_range_eq (w : Nat) (step : G → Nat → G) (A : Nat → G)
    (hstep : ∀ r i, step r i = 2 ^ w • r + A i) : ∀ (W : Nat) (r0 : G),
    ((List.range W).reverse).foldl step r0
      = 2 ^ (W * w) • r0 + ∑ i in Finset.range W, 2 ^ (i * w) • A i := by
  intro W
  induction W with
  | zero => intro r0; simp
  | succ W ih =>
    intro r0
    rw [List.range_succ, List.reverse_append, List.reverse_singleton,
      List.singleton_append, List.foldl_cons, ih (step r0 W), hstep r0 W,
      smul_add, ← mul_smul, ← pow_add, Finset.sum_range_succ]
    have hexp : (W + 1) * w = W * w + w := Nat.succ_mul W w
    rw [hexp]
    abel

/-- The single-threaded accumulator's arithmetic core is the sum, over all
points, of the point's windowed contribution.  This holds for arbitrary
tables and scalars: the software pipelining and the zero-digit skipping
disappear into `entryVal`. -/
theorem multiscalarLoop_eq_sum (t : MultiscalarPrecompRef G) (k : List ScalarRepr)
    (num_points nbits : Nat) :
    multiscalarLoop t k num_points nbits
      = ∑ m in Finset.range num_points,
          pointContrib t.window_size t.window_mask nbits (t.tables.getD m []) (k.getD m []) := by
  have hstep : ∀ (r : G) (i : Nat),
      msWindow t k num_points i r
        = 2 ^ t.window_size • r + ∑ m in Finset.range num_points,
            entryVal t.window_size t.window_mask (t.tables.getD m []) (k.getD m []) i :=
    fun r i => msWindow_eq t k num_points i r
  rw [multiscalarLoop, foldl_rev_range_eq t.window_size _ _ hstep _ 0, smul_zero, zero_add]
  rw [Finset.sum_congr rfl (fun i _ => Finset.smul_sum), Finset.sum_comm]
  rfl

/-! ### Exactness of the precomputed tables -/

theorem precompTableAux_length (p : G) : ∀ (n : Nat) (cur : G),
    (precompTableAux p cur n).length = n := by
  intro n
  induction n with
  | zero => intro cur; rfl
  | succ n ih => intro cur; simp only [precompTableAux, List.length_cons, ih]

theorem precompTableAux_getD (p : G) : ∀ (n : Nat) (cur : G) (j : Nat), j < n →
    (precompTableAux p cur n).getD j 0 = cur + (j + 1) • p := by
  intro n
  induction n with
  | zero => intro cur j hj; omega
  | succ n ih =>
    intro cur j hj
    cases j with
    | zero => simp [precompTableAux, one_smul]
    | succ j =>
      simp only [precompTableAux, List.getD_cons_succ]
      rw [ih (cur + p) j (by omega), add_assoc]
      congr 1
      rw [add_comm p, ← succ_nsmul]

theorem precompPointTable_length (p : G) (te : Nat) (hte : 1 ≤ te) :
    (precompPointTable p te).length = te := by
  simp only [precompPointTable, List.length_cons, precompTableAux_length]
  omega

theorem precompPointTable_getD (p : G) (te : Nat) (j : Nat) (hj : j < te) :
    (precompPointTable p te).getD j 0 = (j + 1) • p := by
  cases j with
  | zero => simp [precompPointTable, one_smul]
  | succ j =>
    simp only [precompPointTable, List.getD_cons_succ]
    rw [precompTableAux_getD p (te - 1) p j (by omega)]
    rw [add_comm, ← succ_nsmul]

theorem precompute_window_size (points : List G) (ws : Nat) :
    (precompute_fixed_window points ws).window_size = ws := rfl

theorem precompute_window_mask (points : List G) (ws : Nat) :
    (precompute_fixed_window points ws).window_mask = 2 ^ ws - 1 := rfl

theorem precompute_num_points (points : List G) (ws : Nat) :
    (precompute_fixed_window points ws).num_points = points.length := rfl

theorem precompute_table_entries (points : List G) (ws : Nat) :
    (precompute_fixed_window points ws).table_entries = 2 ^ ws - 1 := rfl

theorem precompute_tables_getD (points : List G) (ws m : Nat) (h : m < points.length) :
    (precompute_fixed_window points ws).tables.getD m []
      = precompPointTable (points.getD m 0) (2 ^ ws - 1) := by
  simp only [precompute_fixed_window]
  exact getD_map_of_lt _ points m [] 0 h

theorem two_pow_sub_one_pos (ws : Nat) (hws : 1 ≤ ws) : 1 ≤ 2 ^ ws - 1 := by
  have h2 : 2 ^ 1 ≤ 2 ^ ws := Nat.pow_le_pow_right (by norm_num) hws
  simp at h2
  omega

theorem scalarDigit_le_mask (ws wm : Nat) (s : ScalarRepr) (i : Nat) :
    scalarDigit ws wm s i ≤ wm := by
  simp only [scalarDigit]
  exact Nat.and_le_right

/-- Over a sub-table built by `precompute_fixed_window`, a point's windowed
contribution is exactly `(value mod 2^(num_windows * window_size)) • point`. -/
theorem pointContrib_precomp (ws nbits : Nat) (hws : 1 ≤ ws) (hdvd : ws ∣ 64)
    (p : G) (s : ScalarRepr) (hs : ∀ x ∈ s, x < 2 ^ 64) :
    pointContrib ws (2 ^ ws - 1) nbits (precompPointTable p (2 ^ ws - 1)) s
      = (reprVal s % 2 ^ ((nbits + ws - 1) / ws * ws)) • p := by
  rw [pointContrib]
  have hentry : ∀ i, entryVal ws (2 ^ ws - 1) (precompPointTable p (2 ^ ws - 1)) s i
      = scalarDigit ws (2 ^ ws - 1) s i • p := by
    intro i
    simp only [entryVal]
    by_cases hd : 0 < scalarDigit ws (2 ^ ws - 1) s i
    · rw [if_pos hd]
      have hdle : scalarDigit ws (2 ^ ws - 1) s i ≤ 2 ^ ws - 1 :=
        scalarDigit_le_mask ws (2 ^ ws - 1) s i
      have h1 : 1 ≤ 2 ^ ws - 1 := two_pow_sub_one_pos ws hws
      rw [precompPointTable_getD p _ _ (by omega)]
      congr 1
      omega
    · rw [if_neg hd]
      have h0 : scalarDigit ws (2 ^ ws - 1) s i = 0 := by omega
      rw [h0, zero_smul]
  rw [Finset.sum_congr rfl (fun i _ => by rw [hentry i])]
  rw [Finset.sum_congr rfl (fun i _ => (mul_smul (2 ^ (i * ws)) _ p).symm), ← Finset.sum_smul]
  congr 1
  rw [Finset.sum_congr rfl (fun i _ => by rw [scalarDigit_eq ws hws hdvd s hs i]),
    digit_reassemble]

/-! ### The naive double-and-add reference -/

theorem naiveDoubleAdd_eq (nbits v : Nat) (p : G) :
    naiveDoubleAdd nbits v p = (v % 2 ^ nbits) • p := by
  have hstep : ∀ (r : G) (i : Nat),
      (fun (r : G) (i : Nat) =>
        let r2 := r + r
        if (v >>> i) % 2 = 1 then r2 + p else r2) r i
        = 2 ^ 1 • r + ((v >>> i) % 2) • p := by
    intro r i
    show (if (v >>> i) % 2 = 1 then (r + r) + p else (r + r)) = _
    by_cases hb : (v >>> i) % 2 = 1
    · rw [if_pos hb, hb, pow_one, two_smul, one_smul]
    · have h0 : (v >>> i) % 2 = 0 := by omega
      rw [if_neg hb, h0, pow_one, two_smul, zero_smul, add_zero]
  rw [naiveDoubleAdd, foldl_rev_range_eq 1 _ _ hstep nbits 0, smul_zero, zero_add]
  rw [Finset.sum_congr rfl (fun i _ => (mul_smul (2 ^ (i * 1)) _ p).symm), ← Finset.sum_smul]
  congr 1
  have hterm : ∀ i, 2 ^ (i * 1) * ((v >>> i) % 2)
      = 2 ^ (i * 1) * (v / 2 ^ (i * 1) % 2 ^ 1) := by
    intro i
    rw [Nat.shiftRight_eq_div_pow, Nat.mul_one i, pow_one]
  rw [Finset.sum_congr rfl (fun i _ => hterm i), digit_reassemble, Nat.mul_one]

/-! ### Table views -/

theorem at_point_window_size (t : MultiscalarPrecompOwned G) (idx : Nat) :
    (t.at_point idx).window_size = t.window_size := rfl

theorem at_point_window_mask (t : MultiscalarPrecompOwned G) (idx : Nat) :
    (t.at_point idx).window_mask = t.window_mask := rfl

theorem at_point_num_points (t : MultiscalarPrecompOwned G) (idx : Nat) :
    (t.at_point idx).num_points = t.num_points - idx := rfl

theorem at_point_tables_getD (t : MultiscalarPrecompOwned G) (idx j : Nat) (d : List G) :
    (t.at_point idx).tables.getD j d = t.tables.getD (idx + j) d :=
  getD_drop t.tables idx j d

theorem ref_at_point_num_points (t : MultiscalarPrecompRef G) (idx : Nat) :
    (t.at_point idx).num_points = t.num_points - idx := rfl

theorem ref_at_point_tables_getD (t : MultiscalarPrecompRef G) (idx j : Nat) (d : List G) :
    (t.at_point idx).tables.getD j d = t.tables.getD (idx + j) d :=
  getD_drop t.tables idx j d

/-! ### The accumulator's error behaviour and per-chunk values -/

theorem multiscalar_ok (k : List ScalarRepr) (t : MultiscalarPrecompRef G)
    (num_points nbits : Nat) (hgood : nbits % t.window_size = 0 ∧ 64 % t.window_size = 0) :
    multiscalar k t num_points nbits = Except.ok (multiscalarLoop t k num_points nbits) := by
  rw [multiscalar, if_neg]
  rw [bitsPerLimb]
  push_neg
  exact ⟨hgood.1, hgood.2⟩

theorem multiscalar_error (k : List ScalarRepr) (t : MultiscalarPrecompRef G)
    (num_points nbits : Nat) (hbad : ¬(nbits % t.window_size = 0 ∧ 64 % t.window_size = 0)) :
    multiscalar k t num_points nbits = Except.error msErr := by
  rw [multiscalar, if_pos]
  rw [bitsPerLimb]
  tauto

theorem chunkAcc_ok (k : PublicInputs) (t : MultiscalarPrecompOwned G)
    (num_points nbits chunk_size : Nat)
    (hgood : nbits % t.window_size = 0 ∧ 64 % t.window_size = 0) (c : Nat) :
    chunkAcc k t num_points nbits chunk_size c
      = Except.ok (chunkVal k t num_points nbits chunk_size c) := by
  rw [chunkAcc, multiscalar_ok _ _ _ _ hgood, chunkVal]

theorem chunkAcc_error (k : PublicInputs) (t : MultiscalarPrecompOwned G)
    (num_points nbits chunk_size : Nat)
    (hbad : ¬(nbits % t.window_size = 0 ∧ 64 % t.window_size = 0)) (c : Nat) :
    chunkAcc k t num_points nbits chunk_size c = Except.error msErr := by
  rw [chunkAcc, multiscalar_error _ _ _ _ hbad]

/-- A chunk's value is the sum of the global per-point contributions over the
chunk's index range, for an arbitrary table and scalar source: the table
view and the scalar slicing preserve the global point correspondence. -/
theorem chunkVal_eq_sum (k : PublicInputs) (t : MultiscalarPrecompOwned G)
    (num_points nbits chunk_size c : Nat) :
    chunkVal k t num_points nbits chunk_size c
      = ∑ j in Finset.range (min (c * chunk_size + chunk_size) num_points - c * chunk_size),
          msmPointContrib k t nbits (c * chunk_size + j) := by
  rw [chunkVal, multiscalarLoop_eq_sum]
  apply Finset.sum_congr rfl
  intro j hj
  have hj2 : j < min (c * chunk_size + chunk_size) num_points - c * chunk_size :=
    Finset.mem_range.mp hj
  rw [msmPointContrib, at_point_window_size, at_point_window_mask, at_point_tables_getD]
  congr 1
  cases k with
  | Slice s => exact getD_drop s (c * chunk_size) j []
  | Getter f => exact getD_range_map _ _ j [] hj2

/-! ### The chunk partition covers the point range exactly once -/

theorem numChunks_zero (cs : Nat) (hcs : 1 ≤ cs) : numChunks 0 cs = 0 := by
  rw [numChunks]
  exact Nat.div_eq_of_lt (by omega)

theorem numChunks_pos (n cs : Nat) (hcs : 1 ≤ cs) (hn : 1 ≤ n) : 1 ≤ numChunks n cs := by
  rw [numChunks, Nat.le_div_iff_mul_le (by omega)]
  omega

theorem sum_chunks (cs : Nat) (hcs : 1 ≤ cs) : ∀ (n : Nat) (g : Nat → G),
    (∑ c in Finset.range (numChunks n cs),
      ∑ j in Finset.range (min (c * cs + cs) n - c * cs), g (c * cs + j))
      = ∑ m in Finset.range n, g m := by
  intro n
  induction n using Nat.strong_induction_on with
  | _ n ih =>
    intro g
    rcases Nat.eq_zero_or_pos n with hn0 | hn0
    · subst hn0
      rw [numChunks_zero cs hcs]
      simp
    rcases le_or_lt n cs with hle | hlt
    · have hC : numChunks n cs = 1 := by
        rw [numChunks]
        exact Nat.div_eq_of_lt_le (by omega) (by omega)
      rw [hC, Finset.sum_range_one, Nat.zero_mul, Nat.zero_add, Nat.sub_zero,
        Nat.min_eq_right hle]
      apply Finset.sum_congr rfl
      intro j _
      rw [Nat.zero_add]
    · have hC : numChunks n cs = numChunks (n - cs) cs + 1 := by
        rw [numChunks, numChunks]
        have harg : n + cs - 1 = (n - cs + cs - 1) + cs := by omega
        rw [harg, Nat.add_div_right _ (by omega)]
      rw [hC, Finset.sum_range_succ']
      have hf0 : (∑ j in Finset.range (min (0 * cs + cs) n - 0 * cs), g (0 * cs + j))
          = ∑ j in Finset.range cs, g j := by
        rw [Nat.zero_mul, Nat.zero_add, Nat.sub_zero, Nat.min_eq_left (by omega)]
        apply Finset.sum_congr rfl
        intro j _
        rw [Nat.zero_add]
      have hfc : ∀ c : Nat,
          (∑ j in Finset.range (min ((c + 1) * cs + cs) n - (c + 1) * cs), g ((c + 1) * cs + j))
            = ∑ j in Finset.range (min (c * cs + cs) (n - cs) - c * cs), g (cs + (c * cs + j)) := by
        intro c
        have h1 : (c + 1) * cs = c * cs + cs := by ring
        have harg : min ((c + 1) * cs + cs) n - (c + 1) * cs
            = min (c * cs + cs) (n - cs) - c * cs := by
          rw [h1]
          omega
        rw [harg]
        apply Finset.sum_congr rfl
        intro j _
        congr 1
        rw [h1]
        omega
      rw [Finset.sum_congr rfl (fun c _ => hfc c),
        ih (n - cs) (by omega) (fun m => g (cs + m)), hf0]
      have hadd := Finset.sum_range_add g cs (n - cs)
      rw [show cs + (n - cs) = n by omega] at hadd
      rw [hadd]
      exact add_comm _ _

/-! ### Worker threads and the scheduler -/

theorem threadResult_ok (k : PublicInputs) (t : MultiscalarPrecompOwned G)
    (num_points nbits chunk_size : Nat)
    (hgood : nbits % t.window_size = 0 ∧ 64 % t.window_size = 0) :
    ∀ (l : List Nat) (acc : G),
    threadResult k t num_points nbits chunk_size l acc
      = Except.ok (acc + (l.map (chunkVal k t num_points nbits chunk_size)).sum) := by
  intro l
  induction l with
  | nil => intro acc; simp [threadResult]
  | cons c l ih =>
    intro acc
    rw [threadResult, chunkAcc_ok k t num_points nbits chunk_size hgood c]
    show threadResult k t num_points nbits chunk_size l
        (acc + chunkVal k t num_points nbits chunk_size c) = _
    rw [ih (acc + chunkVal k t num_points nbits chunk_size c), List.map_cons, List.sum_cons,
      add_assoc]

theorem threadResult_error (k : PublicInputs) (t : MultiscalarPrecompOwned G)
    (num_points nbits chunk_size : Nat)
    (hbad : ¬(nbits % t.window_size = 0 ∧ 64 % t.window_size = 0)) (c : Nat) (l : List Nat)
    (acc : G) :
    threadResult k t num_points nbits chunk_size (c :: l) acc = Except.error msErr := by
  rw [threadResult, chunkAcc_error k t num_points nbits chunk_size hbad c]

theorem collectThreads_ok (k : PublicInputs) (t : MultiscalarPrecompOwned G)
    (num_points nbits chunk_size : Nat)
    (hgood : nbits % t.window_size = 0 ∧ 64 % t.window_size = 0) :
    ∀ sched : List (List Nat),
    collectThreads k t num_points nbits chunk_size sched
      = Except.ok (sched.map
          (fun th => (th.map (chunkVal k t num_points nbits chunk_size)).sum)) := by
  intro sched
  induction sched with
  | nil => rfl
  | cons th rest ih =>
    rw [collectThreads, threadResult_ok k t num_points nbits chunk_size hgood th 0, ih,
      List.map_cons, zero_add]

theorem collectThreads_error (k : PublicInputs) (t : MultiscalarPrecompOwned G)
    (num_points nbits chunk_size : Nat)
    (hbad : ¬(nbits % t.window_size = 0 ∧ 64 % t.window_size = 0)) :
    ∀ sched : List (List Nat), (∃ th ∈ sched, th ≠ []) →
    collectThreads k t num_points nbits chunk_size sched = Except.error msErr := by
  intro sched
  induction sched with
  | nil => rintro ⟨th, hmem, _⟩; cases hmem
  | cons th rest ih =>
    rintro ⟨th', hmem, hne⟩
    cases th with
    | nil =>
      rcases List.mem_cons.mp hmem with rfl | hmem'
      · exact absurd rfl hne
      · rw [collectThreads, threadResult, ih ⟨th', hmem', hne⟩]
    | cons c l =>
      rw [collectThreads, threadResult_error k t num_points nbits chunk_size hbad c l 0]

theorem collectThreads_all_nil (k : PublicInputs) (t : MultiscalarPrecompOwned G)
    (num_points nbits chunk_size : Nat) :
    ∀ sched : List (List Nat), (∀ th ∈ sched, th = []) →
    collectThreads k t num_points nbits chunk_size sched
      = Except.ok (List.replicate sched.length (0 : G)) := by
  intro sched
  induction sched with
  | nil => intro _; rfl
  | cons th rest ih =>
    intro hall
    have hth : th = [] := hall th (by simp)
    subst hth
    rw [collectThreads, threadResult, ih (fun th' h => hall th' (by simp [h]))]
    rfl

theorem foldl_add_replicate_zero (n : Nat) :
    (List.replicate n (0 : G)).foldl (fun a b => a + b) 0 = 0 := by
  rw [foldl_add_eq_sum, List.sum_replicate, smul_zero, add_zero]

/-- The scheduler's result for any admissible schedule (any partition of the
chunk indices among the workers, in any order): the configuration error when
the window check fails and there is work to do, otherwise the full sum. -/
theorem parSched_spec (k : PublicInputs) (t : MultiscalarPrecompOwned G)
    (num_points nbits chunk_size : Nat) (sched : List (List Nat)) (hcs : 1 ≤ chunk_size)
    (hperm : sched.flatten.Perm (List.range (numChunks num_points chunk_size))) :
    parSched k t num_points nbits chunk_size sched
      = if nbits % t.window_size = 0 ∧ 64 % t.window_size = 0 then
          Except.ok (msmTableSum k t num_points nbits)
        else if num_points = 0 then Except.ok 0 else Except.error msErr := by
  by_cases hgood : nbits % t.window_size = 0 ∧ 64 % t.window_size = 0
  · rw [if_pos hgood, parSched,
      collectThreads_ok k t num_points nbits chunk_size hgood sched]
    have hsum : (sched.map
          (fun th => (th.map (chunkVal k t num_points nbits chunk_size)).sum)).foldl
            (fun a b => a + b) 0
        = msmTableSum k t num_points nbits := by
      rw [foldl_add_eq_sum, zero_add]
      have h1 : (sched.map
            (fun th => (th.map (chunkVal k t num_points nbits chunk_size)).sum))
          = (sched.map (List.map (chunkVal k t num_points nbits chunk_size))).map List.sum := by
        rw [List.map_map]
        rfl
      rw [h1, ← List.sum_flatten, ← List.map_flatten,
        (hperm.map (chunkVal k t num_points nbits chunk_size)).sum_eq, sum_map_range]
      rw [Finset.sum_congr rfl
        (fun c _ => chunkVal_eq_sum k t num_points nbits chunk_size c)]
      rw [sum_chunks chunk_size hcs num_points (msmPointContrib k t nbits)]
      rfl
    show Except.ok ((sched.map
        (fun th => (th.map (chunkVal k t num_points nbits chunk_size)).sum)).foldl
          (fun a b => a + b) 0) = _
    rw [hsum]
  · rw [if_neg hgood]
    rcases Nat.eq_zero_or_pos num_points with hn0 | hn0
    · subst hn0
      rw [if_pos rfl]
      have hnil : sched.flatten = [] := by
        have := hperm
        rw [numChunks_zero chunk_size hcs] at this
        simpa using this.eq_nil
      have hall : ∀ th ∈ sched, th = [] := List.flatten_eq_nil_iff.mp hnil
      rw [parSched, collectThreads_all_nil k t 0 nbits chunk_size sched hall]
      show Except.ok ((List.replicate sched.length (0 : G)).foldl (fun a b => a + b) 0) = _
      rw [foldl_add_replicate_zero]
    · rw [if_neg (by omega)]
      have hC : 1 ≤ numChunks num_points chunk_size := numChunks_pos _ _ hcs hn0
      have hlen : sched.flatten.length = numChunks num_points chunk_size := by
        rw [hperm.length_eq, List.length_range]
      have hne : ∃ th ∈ sched, th ≠ [] := by
        by_contra hcon
        push_neg at hcon
        have : sched.flatten = [] := List.flatten_eq_nil_iff.mpr hcon
        rw [this] at hlen
        simp at hlen
        omega
      rw [parSched, collectThreads_error k t num_points nbits chunk_size hgood sched hne]

theorem chunkSizeFor_pos (n : Nat) : 1 ≤ chunkSizeFor n := by
  rw [chunkSizeFor]
  split_ifs <;> omega

theorem canonicalSchedule_flatten (nt C : Nat) (h : 1 ≤ nt ∨ C = 0) :
    (canonicalSchedule nt C).flatten = List.range C := by
  cases nt with
  | zero =>
    have hC : C = 0 := by omega
    subst hC
    rfl
  | succ m =>
    rw [canonicalSchedule, List.flatten_cons]
    have hrep : (List.replicate m ([] : List Nat)).flatten = [] := by
      rw [List.flatten_eq_nil_iff]
      intro l hl
      exact List.eq_of_mem_replicate hl
    rw [hrep, List.append_nil]

/-- `par_multiscalar` for a positive thread budget: the configuration error
when the window check fails and there is at least one point, otherwise the
full sum. -/
theorem par_spec (mt : Nat) (k : PublicInputs) (t : MultiscalarPrecompOwned G)
    (num_points nbits : Nat) (hmt : 1 ≤ mt) :
    par_multiscalar mt k t num_points nbits
      = if nbits % t.window_size = 0 ∧ 64 % t.window_size = 0 then
          Except.ok (msmTableSum k t num_points nbits)
        else if num_points = 0 then Except.ok 0 else Except.error msErr := by
  rw [par_multiscalar]
  apply parSched_spec k t num_points nbits _ _ (chunkSizeFor_pos num_points)
  rw [canonicalSchedule_flatten]
  · rcases Nat.eq_zero_or_pos (numChunks num_points (chunkSizeFor num_points)) with hC | hC
    · right; exact hC
    · left; omega

/-! ### Putting it together over precomputed tables -/

theorem num_windows_mul (ws nbits : Nat) (hws : 1 ≤ ws) (hmod : nbits % ws = 0) :
    (nbits + ws - 1) / ws * ws = nbits := by
  have hq : nbits = ws * (nbits / ws) := by
    have := Nat.div_add_mod nbits ws
    omega
  have h1 : nbits + ws - 1 = ws * (nbits / ws) + (ws - 1) := by omega
  rw [h1, Nat.mul_add_div (by omega), Nat.div_eq_of_lt (show ws - 1 < ws by omega),
    Nat.add_zero, Nat.mul_comm]
  omega

theorem limb_getD (s : List ScalarRepr) (hlimb : ∀ r ∈ s, ∀ x ∈ r, x < 2 ^ 64) (j : Nat) :
    ∀ x ∈ s.getD j [], x < 2 ^ 64 := by
  by_cases hj : j < s.length
  · exact hlimb _ (getD_mem s j [] hj)
  · intro x hx
    rw [List.getD_eq_default s [] (by omega)] at hx
    cases hx

theorem msmTableSum_precomp (points : List G) (ws nbits n : Nat) (k : PublicInputs)
    (hws : 1 ≤ ws) (h64 : 64 % ws = 0) (hmod : nbits % ws = 0)
    (hn : n ≤ points.length)
    (hlimb : ∀ m, m < n → ∀ x ∈ k.get m, x < 2 ^ 64) :
    msmTableSum k (precompute_fixed_window points ws) n nbits
      = ∑ m in Finset.range n, (reprVal (k.get m) % 2 ^ nbits) • points.getD m 0 := by
  rw [msmTableSum]
  apply Finset.sum_congr rfl
  intro m hm
  have hm' : m < n := Finset.mem_range.mp hm
  rw [msmPointContrib, precompute_window_size, precompute_window_mask,
    precompute_tables_getD points ws m (by omega),
    pointContrib_precomp ws nbits hws (Nat.dvd_of_mod_eq_zero h64) _ _ (hlimb m hm'),
    num_windows_mul ws nbits hws hmod]

/-- The shared correctness core: `par_multiscalar` over a slice source and a
freshly precomputed table equals the naive double-and-add reference. -/
theorem par_slice_precomp_eq_naive (mt : Nat) (scalars : List ScalarRepr) (points : List G)
    (ws nbits : Nat) (hmt : 1 ≤ mt) (hws : 1 ≤ ws) (h64 : 64 % ws = 0)
    (hmod : nbits % ws = 0) (hlen : scalars.length = points.length)
    (hlimb : ∀ s ∈ scalars, ∀ x ∈ s, x < 2 ^ 64) :
    par_multiscalar mt (PublicInputs.Slice scalars) (precompute_fixed_window points ws)
        points.length nbits
      = Except.ok (naiveMSM nbits (scalars.map reprVal) points) := by
  rw [par_spec mt _ _ _ _ hmt, precompute_window_size, if_pos ⟨hmod, h64⟩]
  congr 1
  have hget : ∀ m, (PublicInputs.Slice scalars).get m = scalars.getD m [] := fun m => rfl
  rw [msmTableSum_precomp points ws nbits points.length _ hws h64 hmod le_rfl
    (fun m _ => by rw [hget m]; exact limb_getD scalars hlimb m)]
  rw [naiveMSM, sum_map_range]
  apply Finset.sum_congr rfl
  intro m hm
  have hm' : m < points.length := Finset.mem_range.mp hm
  rw [naiveDoubleAdd_eq, hget m,
    getD_map_of_lt reprVal scalars m 0 [] (by omega)]

/-- The accumulator run through a table view sliced at offset `kk` computes
the sum over the global indices `[kk, kk + m)`. -/
theorem multiscalar_view_eq (points : List G) (ws nbits kk m : Nat) (s : List ScalarRepr)
    (hws : 1 ≤ ws) (h64 : 64 % ws = 0) (hmod : nbits % ws = 0)
    (hkm : kk + m ≤ points.length)
    (hlimb : ∀ r ∈ s, ∀ x ∈ r, x < 2 ^ 64) :
    multiscalar s ((precompute_fixed_window points ws).at_point kk) m nbits
      = Except.ok (∑ j in Finset.range m,
          (reprVal (s.getD j []) % 2 ^ nbits) • points.getD (kk + j) 0) := by
  rw [multiscalar_ok _ _ _ _ ⟨hmod, h64⟩]
  congr 1
  rw [multiscalarLoop_eq_sum]
  apply Finset.sum_congr rfl
  intro j hj
  have hj' : j < m := Finset.mem_range.mp hj
  rw [at_point_window_size, at_point_window_mask, at_point_tables_getD,
    precompute_window_size, precompute_window_mask,
    precompute_tables_getD points ws (kk + j) (by omega),
    pointContrib_precomp ws nbits hws (Nat.dvd_of_mod_eq_zero h64) _ _
      (limb_getD s hlimb j),
    num_windows_mul ws nbits hws hmod]

/-! ### The claims -/

/-- C1: for every point set and every scalar set of size `n` (hence in
particular n ∈ {0, 1, 2, 17, 1023, 1025}), with a table built by
`precompute_fixed_window` over those points, with `nbits` divisible by the
window size and the window size dividing 64, `par_multiscalar` returns
exactly `Σ scalar_i · point_i` as computed by the naive sequential
double-and-add reference without windowing or precomputation.  The call is
made with a positive thread budget and scalar limbs that fit in 64 bits,
as every real caller does. -/
theorem claim1_par_matches_naive {G : Type} [AddCommMonoid G] (mt : Nat)
    (scalars : List ScalarRepr) (points : List G) (ws nbits : Nat)
    (hmt : 1 ≤ mt) (hws : 1 ≤ ws) (h64 : 64 % ws = 0) (hmod : nbits % ws = 0)
    (hlen : scalars.length = points.length)
    (hlimb : ∀ s ∈ scalars, ∀ x ∈ s, x < 2 ^ 64) :
    par_multiscalar mt (PublicInputs.Slice scalars) (precompute_fixed_window points ws)
        points.length nbits
      = Except.ok (naiveMSM nbits (scalars.map reprVal) points) :=
  par_slice_precomp_eq_naive mt scalars points ws nbits hmt hws h64 hmod hlen hlimb

theorem claim1_witness :
    1 ≤ 2 ∧
    par_multiscalar 2 (PublicInputs.Slice [[3], [5]])
        (precompute_fixed_window [(3 : Nat), 5] 2) 2 4
      = Except.ok (naiveMSM 4 ([[3], [5]].map reprVal) [(3 : Nat), 5]) :=
  ⟨by norm_num,
    claim1_par_matches_naive 2 [[3], [5]] [(3 : Nat), 5] 2 4 (by norm_num) (by norm_num)
      (by norm_num) (by norm_num) rfl (by decide)⟩

/-- C2: for every sequence of base points and every window size `w ≥ 1`,
`precompute_fixed_window` produces `2^w - 1` entries per point, the `j`-th
entry of point `i`'s sub-table is `(j+1) • P_i`, and entry 0 is `P_i`. -/
theorem claim2_precompute_exact {G : Type} [AddCommMonoid G] (points : List G) (w : Nat)
    (hw : 1 ≤ w) :
    (precompute_fixed_window points w).table_entries = 2 ^ w - 1 ∧
    ∀ i, i < points.length →
      ((precompute_fixed_window points w).tables.getD i []).length = 2 ^ w - 1 ∧
      (∀ j, j < 2 ^ w - 1 →
        ((precompute_fixed_window points w).tables.getD i []).getD j 0
          = (j + 1) • points.getD i 0) ∧
      ((precompute_fixed_window points w).tables.getD i []).getD 0 0 = points.getD i 0 := by
  refine ⟨rfl, fun i hi => ?_⟩
  rw [precompute_tables_getD points w i hi]
  refine ⟨precompPointTable_length _ _ (two_pow_sub_one_pos w hw),
    fun j hj => precompPointTable_getD _ _ _ hj, ?_⟩
  rw [precompPointTable_getD _ _ 0 (two_pow_sub_one_pos w hw), zero_add, one_smul]

theorem claim2_witness :
    1 ≤ 2 ∧
    ((precompute_fixed_window [(5 : Nat)] 2).tables.getD 0 []).getD 1 0
      = (1 + 1) • (5 : Nat) :=
  ⟨by norm_num,
    ((claim2_precompute_exact [(5 : Nat)] 2 (by norm_num)).2 0 (by norm_num)).2.1 1
      (by norm_num)⟩

/-- C3: `multiscalar` fails with the fatal configuration error if and only
if `nbits % window_size ≠ 0` or `64 % window_size ≠ 0`.  The failure is
uniform in the scalars, the tables, and the point count — the quantified
statement shows the error does not depend on any group data, so it occurs
before any group arithmetic — and in particular `window_size = 7` with
`nbits = 64` fails this way. -/
theorem claim3_multiscalar_error_iff {G : Type} [AddCommMonoid G] (k : List ScalarRepr)
    (t : MultiscalarPrecompRef G) (num_points nbits : Nat) :
    ((∃ e, multiscalar k t num_points nbits = Except.error e)
        ↔ (nbits % t.window_size ≠ 0 ∨ 64 % t.window_size ≠ 0)) ∧
    (t.window_size = 7 → multiscalar k t num_points 64 = Except.error msErr) := by
  constructor
  · constructor
    · rintro ⟨e, he⟩
      by_contra hcon
      push_neg at hcon
      rw [multiscalar_ok k t num_points nbits ⟨hcon.1, hcon.2⟩] at he
      cases he
    · intro h
      exact ⟨msErr, multiscalar_error k t num_points nbits (by tauto)⟩
  · intro h7
    apply multiscalar_error
    rw [h7]
    norm_num

theorem claim3_witness :
    (⟨0, 7, 127, 127, []⟩ : MultiscalarPrecompRef Nat).window_size = 7 ∧
    multiscalar [] (⟨0, 7, 127, 127, []⟩ : MultiscalarPrecompRef Nat) 0 64
      = Except.error msErr :=
  ⟨rfl, (claim3_multiscalar_error_iff [] (⟨0, 7, 127, 127, []⟩ : MultiscalarPrecompRef Nat)
    0 64).2 rfl⟩

/-- C4: when `par_multiscalar` is called with `nbits` not divisible by the
table's window size (or the window size not dividing 64), at least one
point, and a positive thread budget, the whole call returns the
configuration error: no partial sum is ever produced, so no chunk
accumulation is reflected in the result (the call itself spawns no threads;
the pool is process-wide). -/
theorem claim4_config_error_aborts {G : Type} [AddCommMonoid G] (mt : Nat)
    (k : PublicInputs) (t : MultiscalarPrecompOwned G) (num_points nbits : Nat)
    (hmt : 1 ≤ mt) (hn : 1 ≤ num_points)
    (hbad : ¬(nbits % t.window_size = 0 ∧ 64 % t.window_size = 0)) :
    par_multiscalar mt k t num_points nbits = Except.error msErr := by
  rw [par_spec mt k t num_points nbits hmt, if_neg hbad, if_neg (by omega)]

theorem claim4_witness :
    par_multiscalar 1 (PublicInputs.Slice [[0]])
        (⟨1, 7, 127, 127, [[5]]⟩ : MultiscalarPrecompOwned Nat) 1 64
      = Except.error msErr :=
  claim4_config_error_aborts 1 (PublicInputs.Slice [[0]])
    (⟨1, 7, 127, 127, [[5]]⟩ : MultiscalarPrecompOwned Nat) 1 64 (by norm_num) (by norm_num)
    (by decide)

/-- C5 counterexample: at exactly 1024 total points the code computes chunk
size 16 (the code tests `num_points > 1024`), not 256 as the claim's
"at or above 1024" states. -/
theorem claim5_counterexample : chunkSizeFor 1024 = 16 ∧ chunkSizeFor 1024 ≠ 256 := by
  constructor <;> decide

/-- C5 (amended): `par_multiscalar`'s chunk size is exactly 16 points when
the total point count is at most 1024 and exactly 256 points above 1024
total points; whenever that computed chunk size would exceed `num_points`
(that is, below 16 points), the chunk size falls back to 1, the counter
hands out exactly `num_points` chunks, and the scheduler still produces
the correct sum. -/
theorem claim5_chunk_policy_amended {G : Type} [AddCommMonoid G] :
    (∀ n, 16 ≤ n → n ≤ 1024 → chunkSizeFor n = 16) ∧
    (∀ n, 1024 < n → chunkSizeFor n = 256) ∧
    (∀ n, n < 16 → chunkSizeFor n = 1) ∧
    (∀ n, n < 16 → numChunks n (chunkSizeFor n) = n) ∧
    (∀ (mt : Nat) (scalars : List ScalarRepr) (points : List G) (ws nbits : Nat),
      1 ≤ mt → 1 ≤ ws → 64 % ws = 0 → nbits % ws = 0 →
      scalars.length = points.length → points.length < 16 →
      (∀ s ∈ scalars, ∀ x ∈ s, x < 2 ^ 64) →
      par_multiscalar mt (PublicInputs.Slice scalars) (precompute_fixed_window points ws)
          points.length nbits
        = Except.ok (naiveMSM nbits (scalars.map reprVal) points)) := by
  have hsmall : ∀ n, n < 16 → chunkSizeFor n = 1 := by
    intro n hn
    simp only [chunkSizeFor]
    rw [if_neg (show ¬ 1024 < n by omega), if_pos (show n < 16 from hn)]
  refine ⟨?_, ?_, hsmall, ?_, ?_⟩
  · intro n h1 h2
    simp only [chunkSizeFor]
    rw [if_neg (show ¬ 1024 < n by omega), if_neg (show ¬ n < 16 by omega)]
  · intro n h1
    simp only [chunkSizeFor]
    rw [if_pos (show 1024 < n from h1), if_neg (show ¬ n < 256 by omega)]
  · intro n hn
    rw [hsmall n hn, numChunks]
    simp
  · intro mt scalars points ws nbits hmt hws h64 hmod hlen _ hlimb
    exact par_slice_precomp_eq_naive mt scalars points ws nbits hmt hws h64 hmod hlen hlimb

theorem claim5_witness :
    (3 : Nat) < 16 ∧ chunkSizeFor 3 = 1 ∧ numChunks 3 (chunkSizeFor 3) = 3 ∧
    par_multiscalar 8 (PublicInputs.Slice [[1], [2], [7]])
        (precompute_fixed_window [(2 : Nat), 3, 4] 2) 3 4
      = Except.ok (naiveMSM 4 ([[1], [2], [7]].map reprVal) [(2 : Nat), 3, 4]) :=
  ⟨by norm_num, (claim5_chunk_policy_amended (G := Nat)).2.2.1 3 (by norm_num),
    (claim5_chunk_policy_amended (G := Nat)).2.2.2.1 3 (by norm_num),
    (claim5_chunk_policy_amended (G := Nat)).2.2.2.2 8 [[1], [2], [7]] [(2 : Nat), 3, 4]
      2 4 (by norm_num) (by norm_num) (by norm_num) (by norm_num) rfl (by norm_num)
      (by decide)⟩

/-- C6: for fixed inputs `par_multiscalar` is deterministic: calls with any
positive `max_threads` values (such as 1, 2, and 8) return identical
results, and more generally the scheduler's result is the same for every
chunk size and every admissible schedule (any partition of the chunk
indices among the workers, in any claim order). -/
theorem claim6_deterministic {G : Type} [AddCommMonoid G] (k : PublicInputs)
    (t : MultiscalarPrecompOwned G) (num_points nbits : Nat) :
    (∀ mt1 mt2, 1 ≤ mt1 → 1 ≤ mt2 →
      par_multiscalar mt1 k t num_points nbits = par_multiscalar mt2 k t num_points nbits) ∧
    (∀ (cs1 cs2 : Nat) (s1 s2 : List (List Nat)), 1 ≤ cs1 → 1 ≤ cs2 →
      s1.flatten.Perm (List.range (numChunks num_points cs1)) →
      s2.flatten.Perm (List.range (numChunks num_points cs2)) →
      parSched k t num_points nbits cs1 s1 = parSched k t num_points nbits cs2 s2) := by
  constructor
  · intro mt1 mt2 h1 h2
    rw [par_spec mt1 k t num_points nbits h1, par_spec mt2 k t num_points nbits h2]
  · intro cs1 cs2 s1 s2 h1 h2 hp1 hp2
    rw [parSched_spec k t num_points nbits cs1 s1 h1 hp1,
      parSched_spec k t num_points nbits cs2 s2 h2 hp2]

theorem claim6_witness :
    par_multiscalar 1 (PublicInputs.Slice [[3], [5]])
        (precompute_fixed_window [(3 : Nat), 5] 2) 2 4
      = par_multiscalar 8 (PublicInputs.Slice [[3], [5]])
          (precompute_fixed_window [(3 : Nat), 5] 2) 2 4 :=
  (claim6_deterministic (PublicInputs.Slice [[3], [5]])
    (precompute_fixed_window [(3 : Nat), 5] 2) 2 4).1 1 8 (by norm_num) (by norm_num)

/-- C7: slicing a table at offset `k` via `at_point` yields a view whose
sub-table `j` equals the owner's sub-table `k + j` and whose `num_points`
equals the owner's `num_points` minus `k` (for owned tables and re-sliced
views alike), and running the accumulator over a chunk of `m` points
through the view gives exactly the sum over global indices `[k, k + m)`
of the precomputed table. -/
theorem claim7_at_point_view {G : Type} [AddCommMonoid G] :
    (∀ (t : MultiscalarPrecompOwned G) (kk j : Nat) (d : List G),
      (t.at_point kk).num_points = t.num_points - kk ∧
      (t.at_point kk).window_size = t.window_size ∧
      (t.at_point kk).window_mask = t.window_mask ∧
      (t.at_point kk).tables.getD j d = t.tables.getD (kk + j) d) ∧
    (∀ (t : MultiscalarPrecompRef G) (kk j : Nat) (d : List G),
      (t.at_point kk).num_points = t.num_points - kk ∧
      (t.at_point kk).tables.getD j d = t.tables.getD (kk + j) d) ∧
    (∀ (points : List G) (ws nbits kk m : Nat) (s : List ScalarRepr),
      1 ≤ ws → 64 % ws = 0 → nbits % ws = 0 → kk + m ≤ points.length →
      (∀ r ∈ s, ∀ x ∈ r, x < 2 ^ 64) →
      multiscalar s ((precompute_fixed_window points ws).at_point kk) m nbits
        = Except.ok (∑ j in Finset.range m,
            (reprVal (s.getD j []) % 2 ^ nbits) • points.getD (kk + j) 0)) :=
  ⟨fun t kk j d => ⟨rfl, rfl, rfl, at_point_tables_getD t kk j d⟩,
    fun t kk j d => ⟨rfl, ref_at_point_tables_getD t kk j d⟩,
    fun points ws nbits kk m s h1 h2 h3 h4 h5 =>
      multiscalar_view_eq points ws nbits kk m s h1 h2 h3 h4 h5⟩

theorem claim7_witness :
    multiscalar [[1], [3]] ((precompute_fixed_window [(2 : Nat), 3, 4] 2).at_point 1) 2 4
      = Except.ok (∑ j in Finset.range 2,
          (reprVal ([[1], [3]].getD j []) % 2 ^ 4) • [(2 : Nat), 3, 4].getD (1 + j) 0) :=
  (claim7_at_point_view (G := Nat)).2.2 [(2 : Nat), 3, 4] 2 4 1 2 [[1], [3]]
    (by norm_num) (by norm_num) (by norm_num) (by norm_num) (by decide)

/-- C8: for the same logical scalar values, a slice-backed source and a
getter-backed source that maps each index below `num_points` to the same
scalar yield identical `par_multiscalar` results (positive thread
budget). -/
theorem claim8_getter_slice_equiv {G : Type} [AddCommMonoid G] (mt : Nat)
    (scalars : List ScalarRepr) (f : Nat → ScalarRepr)
    (t : MultiscalarPrecompOwned G) (num_points nbits : Nat)
    (hmt : 1 ≤ mt) (hf : ∀ i, i < num_points → f i = scalars.getD i []) :
    par_multiscalar mt (PublicInputs.Getter f) t num_points nbits
      = par_multiscalar mt (PublicInputs.Slice scalars) t num_points nbits := by
  rw [par_spec mt _ t num_points nbits hmt, par_spec mt _ t num_points nbits hmt]
  by_cases hgood : nbits % t.window_size = 0 ∧ 64 % t.window_size = 0
  · rw [if_pos hgood, if_pos hgood]
    congr 1
    rw [msmTableSum, msmTableSum]
    apply Finset.sum_congr rfl
    intro m hm
    rw [msmPointContrib, msmPointContrib]
    congr 1
    exact hf m (Finset.mem_range.mp hm)
  · rw [if_neg hgood, if_neg hgood]

theorem claim8_witness :
    par_multiscalar 2 (PublicInputs.Getter (fun i => [[3], [5]].getD i []))
        (precompute_fixed_window [(3 : Nat), 5] 2) 2 4
      = par_multiscalar 2 (PublicInputs.Slice [[3], [5]])
          (precompute_fixed_window [(3 : Nat), 5] 2) 2 4 :=
  claim8_getter_slice_equiv 2 [[3], [5]] (fun i => [[3], [5]].getD i [])
    (precompute_fixed_window [(3 : Nat), 5] 2) 2 4 (by norm_num) (fun i _ => rfl)

/-- C9: every zero window digit is skipped — an entry with digit 0
contributes the identity, no table entry is added — so a scalar whose
limbs are all zero contributes exactly the group identity: appending it
(with a corresponding point) to the input leaves the accumulator's result
unchanged, for every window size satisfying the divisibility
precondition. -/
theorem claim9_zero_scalar {G : Type} [AddCommMonoid G] (t : MultiscalarPrecompRef G)
    (k : List ScalarRepr) (z : ScalarRepr) (nbits : Nat)
    (hmod : nbits % t.window_size = 0) (h64 : 64 % t.window_size = 0)
    (hz : ∀ x ∈ z, x = 0) :
    (∀ (tab : List G) (s : ScalarRepr) (i : Nat),
      scalarDigit t.window_size t.window_mask s i = 0 →
      entryVal t.window_size t.window_mask tab s i = 0) ∧
    multiscalar (k ++ [z]) t (k.length + 1) nbits = multiscalar k t k.length nbits := by
  constructor
  · intro tab s i h0
    simp only [entryVal, h0]
    simp
  · rw [multiscalar_ok _ _ _ _ ⟨hmod, h64⟩, multiscalar_ok _ _ _ _ ⟨hmod, h64⟩]
    congr 1
    rw [multiscalarLoop_eq_sum, multiscalarLoop_eq_sum, Finset.sum_range_succ]
    have hzdig : ∀ i : Nat,
        scalarDigit t.window_size t.window_mask ((k ++ [z]).getD k.length []) i = 0 := by
      intro i
      rw [getD_append_length k z []]
      simp only [scalarDigit]
      have hz0 : z.getD (windowLimb t.window_size i) 0 = 0 := by
        by_cases hl : windowLimb t.window_size i < z.length
        · exact hz _ (getD_mem z _ 0 hl)
        · exact List.getD_eq_default z 0 (by omega)
      rw [hz0]
      simp
    have hlast : pointContrib t.window_size t.window_mask nbits
        (t.tables.getD k.length []) ((k ++ [z]).getD k.length []) = 0 := by
      rw [pointContrib]
      apply Finset.sum_eq_zero
      intro i _
      simp only [entryVal, hzdig i]
      simp
    rw [hlast, add_zero]
    apply Finset.sum_congr rfl
    intro m hm
    congr 1
    exact getD_append_of_lt k [z] m [] (Finset.mem_range.mp hm)

theorem claim9_witness :
    multiscalar [[3], [0]] ((precompute_fixed_window [(3 : Nat), 5] 2).at_point 0) 2 4
      = multiscalar [[3]] ((precompute_fixed_window [(3 : Nat), 5] 2).at_point 0) 1 4 :=
  (claim9_zero_scalar ((precompute_fixed_window [(3 : Nat), 5] 2).at_point 0) [[3]] [0] 4
    (by decide) (by decide) (by decide)).2

/-- C10: with `num_points = 0`, `par_multiscalar` returns the group
identity without invoking the accumulator at all — the counter hands out
zero chunks — and therefore raises no configuration error for any `nbits`,
even one not divisible by the table's window size. -/
theorem claim10_zero_points {G : Type} [AddCommMonoid G] (mt : Nat) (k : PublicInputs)
    (t : MultiscalarPrecompOwned G) (nbits : Nat) :
    par_multiscalar mt k t 0 nbits = Except.ok 0 ∧ numChunks 0 (chunkSizeFor 0) = 0 := by
  have hC : numChunks 0 (chunkSizeFor 0) = 0 := numChunks_zero _ (chunkSizeFor_pos 0)
  refine ⟨?_, hC⟩
  simp only [par_multiscalar]
  rw [hC, Nat.min_zero]
  rfl

end BellMSM
